import Mathlib

/-!
Verification of the indexing pipeline of mcp-karpenter-documentation.

The development shallowly embeds the Python sources:
  src/mcp_karpenter_documentation/parser.py  (DocumentParser)
  src/mcp_karpenter_documentation/indexer.py (KarpenterDocsIndexer)
and, where the repository files are not available (models.py, database.py),
models the data model and the document store from the specification.

Strings are modelled as lists of characters (String.data).  Python string
operations used by the source are embedded one to one:
  str.replace(a, b)   -> replaceAll (all non-overlapping occurrences, left to right)
  str.endswith(s)     -> listEndsWith
  s[:-n]              -> pyDropRight
  str.strip()         -> pyStrip (Python whitespace set)
  str.title()         -> pyTitle
  re.sub(p, "", s)    -> one structurally recursive scanner per pattern used
Fuel arguments (initialised with the list length) make the scanners
structurally recursive; a step always consumes at least one character, so
the fuel never runs out on the initial call.
-/

/-- Matches a literal pattern at the head of a list: returns the remainder
after the pattern when the pattern is a prefix, and none otherwise. -/
def dropMatch : List Char → List Char → Option (List Char)
  | [], l => some l
  | _ :: _, [] => none
  | p :: ps, c :: cs => if p = c then dropMatch ps cs else none

/-- Decides whether the pattern occurs as a contiguous sublist. -/
def occursIn (pat : List Char) : List Char → Bool
  | [] => pat.isEmpty
  | c :: cs => (dropMatch pat (c :: cs)).isSome || occursIn pat cs

/-- Embedding of Python str.replace(pat, repl): replaces every
non-overlapping occurrence, scanning left to right.  The fuel argument
makes the recursion structural; replaceAll passes the list length, which
suffices because every step consumes at least one character when the
pattern is nonempty (the source only replaces nonempty patterns). -/
def replaceAllGo (pat repl : List Char) : Nat → List Char → List Char
  | _, [] => []
  | 0, l => l
  | fuel + 1, c :: cs =>
    match dropMatch pat (c :: cs) with
    | some rest => repl ++ replaceAllGo pat repl fuel rest
    | none => c :: replaceAllGo pat repl fuel cs

/-- Python str.replace(pat, repl) on character lists. -/
def replaceAll (pat repl l : List Char) : List Char :=
  replaceAllGo pat repl l.length l

/-- Python str.endswith(pat) on character lists. -/
def listEndsWith (pat l : List Char) : Bool :=
  (dropMatch pat.reverse l.reverse).isSome

/-- Python slicing s[:-n] for n greater than zero: drops the last n
characters, yielding the empty list when n is at least the length. -/
def pyDropRight (n : Nat) (l : List Char) : List Char :=
  l.take (l.length - n)

/-- Base URL constant KARPENTER_DOCS_BASE_URL of parser.py. -/
def KARPENTER_DOCS_BASE_URL : String := "https://karpenter.sh"

/-- Extension-removal stage of DocumentParser._compute_url, parser.py line 96:
str(relative_path).replace(".md", "").replace(".markdown", ""). -/
def stripMdExtensions (p : List Char) : List Char :=
  replaceAll (".markdown".data) [] (replaceAll (".md".data) [] p)

/-- Stages of DocumentParser._compute_url after extension removal,
parser.py lines 99 to 103: drop a trailing "/index", then
replace "content/en/docs/" with "docs/", then replace "content/en/"
with the empty string (str.replace, hence every occurrence). -/
def urlTail (p : List Char) : List Char :=
  let p1 := if listEndsWith ("/index".data) p then pyDropRight 6 p else p
  let p2 := replaceAll ("content/en/docs/".data) ("docs/".data) p1
  replaceAll ("content/en/".data) [] p2

/-- Embedding of DocumentParser._compute_url, parser.py lines 86 to 104. -/
def compute_url (relativePath : String) : String :=
  ⟨KARPENTER_DOCS_BASE_URL.data ++ '/' :: urlTail (stripMdExtensions relativePath.data)⟩

/-- Extension removal as the specification sentence of claim C1 reads it:
strip only a trailing ".md" or ".markdown" extension, leaving every other
occurrence intact.  Used solely to compare the claimed behaviour with the
source behaviour. -/
def specStripTrailingExt (p : List Char) : List Char :=
  if listEndsWith (".md".data) p then pyDropRight 3 p
  else if listEndsWith (".markdown".data) p then pyDropRight 9 p
  else p

/-- URL derivation as claim C1 reads it: trailing-extension stripping
followed by the later stages of the source. -/
def specComputeUrlTrailingExt (relativePath : String) : String :=
  ⟨KARPENTER_DOCS_BASE_URL.data ++ '/' :: urlTail (specStripTrailingExt relativePath.data)⟩

/-- Prefix-rewrite stage as the specification sentence of claim C2 reads it:
rewrite only a leading "content/en/docs/" to "docs/", then only a leading
"content/en/" to the empty string, both checked unconditionally in that
order.  Used solely to compare the claimed behaviour with the source. -/
def specLeadingRules (p : List Char) : List Char :=
  let p1 :=
    match dropMatch ("content/en/docs/".data) p with
    | some r => "docs/".data ++ r
    | none => p
  match dropMatch ("content/en/".data) p1 with
  | some r => r
  | none => p1

/-- URL derivation as claim C2 reads it: the source extension removal and
index drop, then leading-only prefix rewrites. -/
def specComputeUrlLeadingRules (relativePath : String) : String :=
  let p := stripMdExtensions relativePath.data
  let p1 := if listEndsWith ("/index".data) p then pyDropRight 6 p else p
  ⟨KARPENTER_DOCS_BASE_URL.data ++ '/' :: specLeadingRules p1⟩

/-- Intermediate value of compute_url right before the two prefix
rewrites: extension removal followed by the index drop. -/
def urlPreRules (relativePath : String) : List Char :=
  let p := stripMdExtensions relativePath.data
  if listEndsWith ("/index".data) p then pyDropRight 6 p else p

/-- Scanner for the lazy middle of a regex of shape OPEN body CLOSE:
starting right after OPEN, finds the earliest position where the literal
CLOSE matches, skipping characters one at a time; a skipped character must
not be a newline unless nlOk is set (re.DOTALL).  Returns the remainder
after CLOSE.  This is exactly how a lazy body (dot star question mark)
followed by a literal behaves in Python re. -/
def scanClose (close : List Char) (nlOk : Bool) : List Char → Option (List Char)
  | [] => (dropMatch close []).map id
  | c :: cs =>
    match dropMatch close (c :: cs) with
    | some rest => some rest
    | none => if !nlOk && c = '\n' then none else scanClose close nlOk cs

/-- Embedding of re.sub(OPEN lazy-body CLOSE, "", s): scans left to right;
at each position, tries to match OPEN and then the earliest CLOSE; on a
match the whole match is dropped and scanning resumes after it, otherwise
the character is kept and scanning moves one character right.  Fuel makes
the recursion structural; each step consumes at least one character when
OPEN is nonempty (all patterns used have nonempty OPEN). -/
def subLazyGo (opn close : List Char) (nlOk : Bool) : Nat → List Char → List Char
  | _, [] => []
  | 0, l => l
  | fuel + 1, c :: cs =>
    match dropMatch opn (c :: cs) with
    | some rest =>
      match scanClose close nlOk rest with
      | some rest2 => subLazyGo opn close nlOk fuel rest2
      | none => c :: subLazyGo opn close nlOk fuel cs
    | none => c :: subLazyGo opn close nlOk fuel cs

/-- Removal of every match of OPEN lazy-body CLOSE, as re.sub does. -/
def subLazy (opn close : List Char) (nlOk : Bool) (l : List Char) : List Char :=
  subLazyGo opn close nlOk l.length l

/-- Decides whether any match of OPEN lazy-body CLOSE occurs anywhere. -/
def hasLazyMatch (opn close : List Char) (nlOk : Bool) : List Char → Bool
  | [] => false
  | c :: cs =>
    (match dropMatch opn (c :: cs) with
     | some rest => (scanClose close nlOk rest).isSome
     | none => false) || hasLazyMatch opn close nlOk cs

/-- Skips to the first greater-than sign and returns the remainder after
it; none when there is no greater-than sign. -/
def afterGt : List Char → Option (List Char)
  | [] => none
  | c :: cs => if c = '>' then some cs else afterGt cs

/-- Attempts to match the tag pattern body (one or more characters other
than the greater-than sign, then a greater-than sign) at the head of the
list, which is the remainder found right after a less-than sign.  Returns
the remainder after the match.  A greedy run of the class followed by the
literal is equivalent to skipping to the first greater-than sign, provided
the first character is not itself that sign. -/
def findTagEnd : List Char → Option (List Char)
  | [] => none
  | c :: cs => if c = '>' then none else afterGt cs

/-- Embedding of re.sub for the HTML tag pattern of parser.py line 124
(a less-than sign, one or more characters other than the greater-than
sign, then a greater-than sign).  Fuel as in subLazyGo. -/
def removeTagGo : Nat → List Char → List Char
  | _, [] => []
  | 0, l => l
  | fuel + 1, c :: cs =>
    if c = '<' then
      match findTagEnd cs with
      | some rest => removeTagGo fuel rest
      | none => c :: removeTagGo fuel cs
    else c :: removeTagGo fuel cs

/-- Removal of every HTML tag match, as re.sub does. -/
def removeTag (l : List Char) : List Char :=
  removeTagGo l.length l

/-- Decides whether the list contains any substring matching the HTML tag
pattern: a less-than sign, then at least one character other than the
greater-than sign, then a greater-than sign. -/
def hasTagMatch : List Char → Bool
  | [] => false
  | c :: cs => (if c = '<' then (findTagEnd cs).isSome else false) || hasTagMatch cs

/-- Python str.strip() whitespace set (space, tab, newline, carriage
return, vertical tab, form feed). -/
def isPyWs (c : Char) : Bool :=
  c = ' ' || c = '\t' || c = '\n' || c = '\r' || c = '\x0b' || c = '\x0c'

/-- Drops the longest run of whitespace at the end of the list. -/
def dropTrailWs (l : List Char) : List Char :=
  (l.reverse.dropWhile isPyWs).reverse

/-- Python str.strip() on character lists. -/
def pyStrip (l : List Char) : List Char :=
  dropTrailWs (l.dropWhile isPyWs)

/-- Embedding of DocumentParser._clean_content, parser.py lines 106 to 125:
five re.sub passes in sequence, then str.strip().  The three shortcode
patterns have single-line lazy bodies, the comment pattern has a DOTALL
lazy body, and the tag pattern is the character-class pattern above. -/
def clean_content (content : String) : String :=
  let s1 := subLazy ("\x7b\x7b<".data) (">\x7d\x7d".data) false content.data
  let s2 := subLazy ("\x7b\x7b%".data) ("%\x7d\x7d".data) false s1
  let s3 := subLazy ("\x7b\x7b".data) ("\x7d\x7d".data) false s2
  let s4 := subLazy ("<!--".data) ("-->".data) true s3
  let s5 := removeTag s4
  ⟨pyStrip s5⟩

/-- Decides whether a string contains a generic shortcode match: two
opening braces, a single-line lazy body, two closing braces. -/
def containsBraceShortcode (s : String) : Bool :=
  hasLazyMatch ("\x7b\x7b".data) ("\x7d\x7d".data) false s.data

/-- Decides whether a string contains an HTML tag pattern match. -/
def containsTagMatch (s : String) : Bool :=
  hasTagMatch s.data

/-- Value of a frontmatter metadata field: either a string or a value of
any other YAML type (number, list, map, and so on), which the source only
inspects through isinstance(x, str). -/
inductive FMVal where
  | str (s : String)
  | other
deriving DecidableEq

/-- Result of frontmatter.load: the metadata mapping and the body.  A file
with no metadata block loads with an empty mapping and the whole text as
the body. -/
structure FMDoc where
  meta : List (String × FMVal)
  content : String

/-- Python dict.get(key) on the metadata mapping. -/
def metaGet (meta : List (String × FMVal)) (key : String) : Option FMVal :=
  (meta.find? (fun kv => decide (kv.1 = key))).map (fun kv => kv.2)

/-- Python str.title() stepper (ASCII model): an alphabetic character is
uppercased when the previous character is not alphabetic and lowercased
otherwise; any other character passes through and ends the word. -/
def pyTitleGo : Bool → List Char → List Char
  | _, [] => []
  | prevAlpha, c :: cs =>
    (if c.isAlpha then (if prevAlpha then c.toLower else c.toUpper) else c)
      :: pyTitleGo c.isAlpha cs

/-- Python str.title() on character lists. -/
def pyTitle (l : List Char) : List Char :=
  pyTitleGo false l

/-- Fallback title of DocumentParser._extract_metadata, parser.py line 58:
file_path.stem.replace("-", " ").replace("_", " ").title(). -/
def titleFromStem (stem : String) : String :=
  ⟨pyTitle (replaceAll ['_'] [' '] (replaceAll ['-'] [' '] stem.data))⟩

/-- DocumentMetadata of models.py (that file is not among the sources;
the fields are the ones the specification section 3 lists: title,
optional description, optional license). -/
structure DocumentMetadata where
  title : String
  description : Option String
  license : Option String
deriving DecidableEq

/-- Embedding of DocumentParser._extract_metadata, parser.py lines 45 to
72: each field is taken when it is a string and treated as absent
otherwise; a missing or non-string title falls back to the
filename-derived value. -/
def extract_metadata (meta : List (String × FMVal)) (stem : String) :
    DocumentMetadata :=
  { title :=
      match metaGet meta "title" with
      | some (.str s) => s
      | _ => titleFromStem stem
    description :=
      match metaGet meta "description" with
      | some (.str s) => some s
      | _ => none
    license :=
      match metaGet meta "license" with
      | some (.str s) => some s
      | _ => none }

/-- Document of models.py (that file is not among the sources; the fields
are the ones the specification section 3 lists).  The source field named
section is a Lean keyword and is embedded as sectionName. -/
structure Document where
  path : String
  title : String
  description : Option String
  sectionName : String
  content : String
  url : String
deriving DecidableEq

/-- Embedding of DocumentParser._extract_section, parser.py lines 74 to
84: the first component when the relative path has more than one
component, else the sentinel root. -/
def extract_section (relParts : List String) : String :=
  match relParts with
  | p :: _ :: _ => p
  | _ => "root"

/-- Joins relative path components with slashes, as str() of a PosixPath
does. -/
def pathJoin (parts : List String) : String :=
  String.intercalate "/" parts

/-- Embedding of DocumentParser.parse_file, parser.py lines 16 to 43.
The two fallible external steps are passed as arguments: load is the
outcome of frontmatter.load (error for an unreadable file or a malformed
metadata block), rel the outcome of Path.relative_to (error when the file
lies outside the base root), given as the component list of the relative
path; stem is file_path.stem.  The try/except of the source turns any
failure of those steps into None; everything after them is total. -/
def parse_file (load : Except Unit FMDoc) (rel : Except Unit (List String))
    (stem : String) : Option Document :=
  match load, rel with
  | .ok post, .ok relParts =>
    let md := extract_metadata post.meta stem
    some
      { path := pathJoin relParts
        title := md.title
        description := md.description
        sectionName := extract_section relParts
        content := clean_content post.content
        url := compute_url (pathJoin relParts) }
  | _, _ => none

/-- Modelled from the spec: database.py (DocumentDatabase) is not among
the source files; specification section 4.2 describes the store as a
record store keyed by path with insert-or-replace semantics.  The store
is modelled as the list of its records in insertion order; upsert
replaces the records carrying the same path when one exists and appends
otherwise. -/
def upsert_document (d : Document) (db : List Document) : List Document :=
  if db.any (fun e => decide (e.path = d.path)) then
    db.map (fun e => if e.path = d.path then d else e)
  else db ++ [d]

/-- Modelled from the spec: exact lookup by primary key (specification
section 4.2). -/
def get_document (p : String) (db : List Document) : Option Document :=
  db.find? (fun e => decide (e.path = p))

/-- Modelled from the spec: number of stored documents (specification
section 4.2). -/
def get_document_count (db : List Document) : Nat :=
  db.length

/-- Modelled from the spec: a document is a full-text hit when the query
occurs in its title, description or content (specification sections 4.2
and 8); an absent description matches nothing. -/
def docMatches (q : String) (d : Document) : Bool :=
  occursIn q.data d.title.data
    || occursIn q.data (d.description.getD "").data
    || occursIn q.data d.content.data

/-- Modelled from the spec: full-text query over the store; an empty
query yields an empty sequence (specification section 4.2).  The
relevance ordering is abstracted away: hits are returned in store
order, which the claims below do not depend on. -/
def search (q : String) (db : List Document) : List Document :=
  if q = "" then [] else db.filter (docMatches q)

/-- Embedding of KarpenterDocsIndexer._index_directory, indexer.py lines
82 to 113.  The filesystem is passed as arguments: pathExists is
docs_path.exists(), isDir says whether docs_path is a directory, and
files lists the parse_file outcome of each markdown file found under the
root, in enumeration order.  Path.rglob yields nothing when the parent is
not a directory (the pathlib selector returns an empty iterator for a
non-directory), so the candidate list is empty in that case.  Each
successful parse is upserted into the store and counted; a failed parse
is skipped; a missing root raises ValueError, embedded as the error
case.  The result pairs the returned count with the final store. -/
def index_directory (docsPath : String) (pathExists isDir : Bool)
    (files : List (Option Document)) (db : List Document) :
    Except String (Nat × List Document) :=
  if pathExists = false then
    .error ("Documentation path does not exist: " ++ docsPath)
  else
    let mdFiles := if isDir then files else []
    .ok (mdFiles.foldl
      (fun acc f =>
        match f with
        | some d => (acc.1 + 1, upsert_document d acc.2)
        | none => acc)
      (0, db))

/-- Concrete document used to instantiate universally quantified
theorems (mirrors the fixture of tests/test_database.py). -/
def sampleDoc : Document :=
  { path := "docs/test.md"
    title := "Test Doc"
    description := some "A test document"
    sectionName := "docs"
    content := "This is test content"
    url := "https://karpenter.sh/docs/test" }

theorem dropMatch_append_self (pat rest : List Char) :
    dropMatch pat (pat ++ rest) = some rest := by
  induction pat with
  | nil => rfl
  | cons p ps ih => simp [dropMatch, ih]

theorem dropMatch_eq_append {pat l rest : List Char}
    (h : dropMatch pat l = some rest) : l = pat ++ rest := by
  induction pat generalizing l with
  | nil => simpa [dropMatch] using h
  | cons p ps ih =>
    cases l with
    | nil => simp [dropMatch] at h
    | cons c cs =>
      by_cases hpc : p = c
      · subst hpc
        simp only [dropMatch, if_pos rfl] at h
        simpa using ih h
      · simp [dropMatch, hpc] at h

theorem replaceAllGo_of_not_occurs {pat : List Char} (repl : List Char)
    (fuel : Nat) (l : List Char) (h : occursIn pat l = false) :
    replaceAllGo pat repl fuel l = l := by
  induction fuel generalizing l with
  | zero => cases l <;> rfl
  | succ fuel ih =>
    cases l with
    | nil => rfl
    | cons c cs =>
      simp only [occursIn, Bool.or_eq_false_iff] at h
      have hdm : dropMatch pat (c :: cs) = none := by
        cases hdm : dropMatch pat (c :: cs) with
        | none => rfl
        | some r => simp [hdm] at h
      simp [replaceAllGo, hdm, ih cs h.2]

theorem replaceAll_of_not_occurs {pat : List Char} (repl : List Char)
    (l : List Char) (h : occursIn pat l = false) :
    replaceAll pat repl l = l :=
  replaceAllGo_of_not_occurs repl l.length l h

theorem occursIn_append_self (pat l1 : List Char) :
    occursIn pat (l1 ++ pat) = true := by
  induction l1 with
  | nil =>
    cases pat with
    | nil => rfl
    | cons p ps =>
      have h := dropMatch_append_self (p :: ps) []
      rw [List.append_nil] at h
      simp [occursIn, h]
  | cons c cs ih => simp [occursIn, ih]

theorem listEndsWith_occursIn {pat l : List Char}
    (h : listEndsWith pat l = true) : occursIn pat l = true := by
  unfold listEndsWith at h
  cases hdm : dropMatch pat.reverse l.reverse with
  | none => simp [hdm] at h
  | some r =>
    have := dropMatch_eq_append hdm
    have hl : l = r.reverse ++ pat := by
      have := congrArg List.reverse this
      simpa using this
    rw [hl]
    exact occursIn_append_self pat r.reverse

theorem dropMatch_of_longer {a b l : List Char} {r : List Char}
    (h : dropMatch (a ++ b) l = some r) : dropMatch a l = some (b ++ r) := by
  have := dropMatch_eq_append h
  rw [List.append_assoc] at this
  rw [this]
  exact dropMatch_append_self a (b ++ r)

theorem occursIn_of_occursIn_longer {a b l : List Char}
    (h : occursIn (a ++ b) l = true) : occursIn a l = true := by
  induction l with
  | nil =>
    simp only [occursIn, List.isEmpty_iff] at h ⊢
    rcases List.append_eq_nil.mp h with ⟨ha, _⟩
    exact ha
  | cons c cs ih =>
    simp only [occursIn, Bool.or_eq_true] at h ⊢
    rcases h with h | h
    · left
      cases hdm : dropMatch (a ++ b) (c :: cs) with
      | none => simp [hdm] at h
      | some r => simp [dropMatch_of_longer hdm]
    · right
      exact ih h

theorem afterGt_eq_none_iff (l : List Char) : afterGt l = none ↔ '>' ∉ l := by
  induction l with
  | nil => simp [afterGt]
  | cons c cs ih =>
    by_cases hc : c = '>'
    · subst hc; simp [afterGt]
    · simp [afterGt, hc, ih, Ne.symm hc]

theorem afterGt_some_length {l r : List Char} (h : afterGt l = some r) :
    r.length < l.length := by
  induction l generalizing r with
  | nil => simp [afterGt] at h
  | cons c cs ih =>
    by_cases hc : c = '>'
    · subst hc
      simp only [afterGt, if_pos rfl] at h
      cases h
      simp
    · simp only [afterGt, if_neg hc] at h
      exact Nat.lt_trans (ih h) (by simp)

theorem findTagEnd_some_length {l r : List Char} (h : findTagEnd l = some r) :
    r.length < l.length := by
  cases l with
  | nil => simp [findTagEnd] at h
  | cons c cs =>
    by_cases hc : c = '>'
    · subst hc; simp [findTagEnd] at h
    · simp only [findTagEnd, if_neg hc] at h
      exact Nat.lt_trans (afterGt_some_length h) (by simp)

theorem findTagEnd_none_cases {l : List Char} (h : findTagEnd l = none) :
    l = [] ∨ (∃ cs, l = '>' :: cs) ∨ '>' ∉ l := by
  cases l with
  | nil => exact Or.inl rfl
  | cons c cs =>
    by_cases hc : c = '>'
    · subst hc; exact Or.inr (Or.inl ⟨cs, rfl⟩)
    · simp only [findTagEnd, if_neg hc] at h
      have hcs := (afterGt_eq_none_iff cs).mp h
      refine Or.inr (Or.inr ?_)
      simp [List.mem_cons, hcs, Ne.symm hc]

theorem removeTagGo_of_not_mem (fuel : Nat) {l : List Char} (h : '>' ∉ l) :
    removeTagGo fuel l = l := by
  induction fuel generalizing l with
  | zero => cases l <;> rfl
  | succ fuel ih =>
    cases l with
    | nil => rfl
    | cons c cs =>
      have hcs : '>' ∉ cs := fun m => h (List.mem_cons_of_mem c m)
      by_cases hc : c = '<'
      · subst hc
        have hft : findTagEnd cs = none := by
          cases cs with
          | nil => rfl
          | cons d ds =>
            have hd : ¬(d = '>') := by
              intro e
              exact hcs (by rw [e]; exact List.mem_cons_self '>' ds)
            simp only [findTagEnd, if_neg hd]
            exact (afterGt_eq_none_iff ds).mpr
              (fun m => hcs (List.mem_cons_of_mem d m))
        simp [removeTagGo, hft, ih hcs]
      · simp [removeTagGo, hc, ih hcs]

theorem afterGt_isSome_append {l : List Char} (t : List Char)
    (h : (afterGt l).isSome = true) : (afterGt (l ++ t)).isSome = true := by
  induction l with
  | nil => simp [afterGt] at h
  | cons c cs ih =>
    by_cases hc : c = '>'
    · subst hc; simp [afterGt]
    · simp only [List.cons_append, afterGt, if_neg hc] at h ⊢
      exact ih h

theorem findTagEnd_isSome_append {l : List Char} (t : List Char)
    (h : (findTagEnd l).isSome = true) : (findTagEnd (l ++ t)).isSome = true := by
  cases l with
  | nil => simp [findTagEnd] at h
  | cons c cs =>
    by_cases hc : c = '>'
    · subst hc; simp [findTagEnd] at h
    · simp only [List.cons_append, findTagEnd, if_neg hc] at h ⊢
      exact afterGt_isSome_append t h

theorem hasTagMatch_cons_false {c : Char} {l : List Char}
    (h : hasTagMatch (c :: l) = false) : hasTagMatch l = false := by
  simp only [hasTagMatch, Bool.or_eq_false_iff] at h
  exact h.2

theorem hasTagMatch_removeTagGo (fuel : Nat) :
    ∀ l : List Char, l.length ≤ fuel → hasTagMatch (removeTagGo fuel l) = false := by
  induction fuel with
  | zero =>
    intro l hl
    have hnil : l = [] := List.length_eq_zero.mp (Nat.le_zero.mp hl)
    subst hnil; rfl
  | succ fuel ih =>
    intro l hl
    cases l with
    | nil => rfl
    | cons c cs =>
      have hcs : cs.length ≤ fuel := by simpa using hl
      by_cases hc : c = '<'
      · subst hc
        cases hft : findTagEnd cs with
        | some rest =>
          have hrest : rest.length ≤ fuel :=
            Nat.le_trans (Nat.le_of_lt (findTagEnd_some_length hft)) hcs
          simp only [removeTagGo, if_pos rfl, hft]
          exact ih rest hrest
        | none =>
          have hrec := ih cs hcs
          have hA : findTagEnd (removeTagGo fuel cs) = none := by
            rcases findTagEnd_none_cases hft with hnil | ⟨ds, hds⟩ | hmem
            · subst hnil; cases fuel <;> rfl
            · subst hds
              cases fuel with
              | zero => simp at hcs
              | succ f =>
                simp only [removeTagGo, if_neg (by decide : ¬('>' = '<'))]
                simp [findTagEnd]
            · rw [removeTagGo_of_not_mem fuel hmem]
              exact hft
          simp only [removeTagGo, if_pos rfl, hft]
          simp [hasTagMatch, hA, hrec]
      · simp only [removeTagGo, if_neg hc]
        simp [hasTagMatch, hc, ih cs hcs]

theorem hasTagMatch_append_of_left {l : List Char} (t : List Char)
    (h : hasTagMatch l = true) : hasTagMatch (l ++ t) = true := by
  induction l with
  | nil => simp [hasTagMatch] at h
  | cons c cs ih =>
    rw [List.cons_append]
    simp only [hasTagMatch, Bool.or_eq_true] at h ⊢
    rcases h with h | h
    · left
      by_cases hc : c = '<'
      · rw [if_pos hc] at h ⊢
        exact findTagEnd_isSome_append t h
      · rw [if_neg hc] at h
        exact absurd h (by simp)
    · right
      exact ih h

theorem hasTagMatch_append_left {l t : List Char}
    (h : hasTagMatch (l ++ t) = false) : hasTagMatch l = false := by
  cases hl : hasTagMatch l with
  | false => rfl
  | true =>
    rw [hasTagMatch_append_of_left t hl] at h
    exact h

theorem hasTagMatch_append_right {l t : List Char}
    (h : hasTagMatch (l ++ t) = false) : hasTagMatch t = false := by
  induction l with
  | nil => simpa using h
  | cons c cs ih => exact ih (hasTagMatch_cons_false (by simpa using h))

theorem hasTagMatch_dropWhile {p : Char → Bool} {l : List Char}
    (h : hasTagMatch l = false) : hasTagMatch (l.dropWhile p) = false := by
  have hsplit := List.takeWhile_append_dropWhile (p := p) (l := l)
  rw [← hsplit] at h
  exact hasTagMatch_append_right h

theorem dropTrailWs_append (l : List Char) :
    l = dropTrailWs l ++ (l.reverse.takeWhile isPyWs).reverse := by
  unfold dropTrailWs
  conv_lhs =>
    rw [← List.reverse_reverse l,
      ← List.takeWhile_append_dropWhile (p := isPyWs) (l := l.reverse)]
  rw [List.reverse_append]

theorem hasTagMatch_dropTrailWs {l : List Char}
    (h : hasTagMatch l = false) : hasTagMatch (dropTrailWs l) = false := by
  rw [dropTrailWs_append l] at h
  exact hasTagMatch_append_left h

theorem hasTagMatch_pyStrip {l : List Char}
    (h : hasTagMatch l = false) : hasTagMatch (pyStrip l) = false :=
  hasTagMatch_dropTrailWs (hasTagMatch_dropWhile h)

theorem dropMatch_some_occursIn {pat l r : List Char}
    (h : dropMatch pat l = some r) : occursIn pat l = true := by
  cases l with
  | nil =>
    cases pat with
    | nil => rfl
    | cons p ps => simp [dropMatch] at h
  | cons c cs => simp [occursIn, h]

/-- C7: URL derivation is a pure, deterministic function of the relative
path (equal inputs give identical outputs), and satisfies the two
concrete equations of the specification: docs/concepts/scheduling.md maps
to the base URL plus /docs/concepts/scheduling, and
content/en/docs/guides/x.md maps to the base URL plus /docs/guides/x. -/
theorem c7_compute_url_pure_deterministic :
    (∀ p q : String, p = q → compute_url p = compute_url q)
      ∧ compute_url "docs/concepts/scheduling.md"
          = "https://karpenter.sh/docs/concepts/scheduling"
      ∧ compute_url "content/en/docs/guides/x.md"
          = "https://karpenter.sh/docs/guides/x" :=
  ⟨fun _ _ h => congrArg compute_url h, by decide, by decide⟩

/-- Witness for c7_compute_url_pure_deterministic: the determinism clause
applied at a concrete input. -/
theorem c7_witness :
    ("docs/faq.md" : String) = "docs/faq.md"
      ∧ compute_url "docs/faq.md" = compute_url "docs/faq.md" :=
  ⟨rfl, c7_compute_url_pure_deterministic.1 "docs/faq.md" "docs/faq.md" rfl⟩

/-- C10: a root-level index.md keeps its index segment, because the
trailing-index drop fires only on a path ending in slash-index; a
non-root index.md does lose the segment. -/
theorem c10_root_index_url :
    compute_url "index.md" = "https://karpenter.sh/index"
      ∧ compute_url "docs/index.md" = "https://karpenter.sh/docs" :=
  ⟨by decide, by decide⟩

/-- C1 (counterexample): the source removes every occurrence of .md from
the relative path, not only a trailing extension; on x.md.y the source
yields the base URL plus /x.y while the claimed trailing-only stripping
yields the base URL plus /x.md.y. -/
theorem c1_counterexample :
    compute_url "x.md.y" ≠ specComputeUrlTrailingExt "x.md.y"
      ∧ compute_url "x.md.y" = "https://karpenter.sh/x.y"
      ∧ specComputeUrlTrailingExt "x.md.y" = "https://karpenter.sh/x.md.y" :=
  ⟨by decide, by decide, by decide⟩

/-- C1 (amended): URL derivation removes every occurrence of .md and then
every occurrence of .markdown anywhere in the relative path (Python
str.replace), before the later transformation steps.  A trailing
.markdown is stripped as the claim states; an occurrence of .md elsewhere
in the path is removed as well, not left intact.  On paths containing
neither pattern the source agrees with the trailing-only reading. -/
theorem c1_amended_replace_all_occurrences :
    compute_url "guide.markdown" = "https://karpenter.sh/guide"
      ∧ compute_url "a.md/b.md" = "https://karpenter.sh/a/b"
      ∧ (∀ p : String, occursIn (".md".data) p.data = false →
          occursIn (".markdown".data) p.data = false →
          compute_url p = specComputeUrlTrailingExt p) := by
  refine ⟨by decide, by decide, ?_⟩
  intro p h1 h2
  have hs : stripMdExtensions p.data = p.data := by
    unfold stripMdExtensions
    rw [replaceAll_of_not_occurs _ _ h1, replaceAll_of_not_occurs _ _ h2]
  have e1 : listEndsWith (".md".data) p.data = false := by
    cases he : listEndsWith (".md".data) p.data with
    | false => rfl
    | true => exact absurd (listEndsWith_occursIn he) (by simp [h1])
  have e2 : listEndsWith (".markdown".data) p.data = false := by
    cases he : listEndsWith (".markdown".data) p.data with
    | false => rfl
    | true => exact absurd (listEndsWith_occursIn he) (by simp [h2])
  have ht : specStripTrailingExt p.data = p.data := by
    simp [specStripTrailingExt, e1, e2]
  unfold compute_url specComputeUrlTrailingExt
  rw [hs, ht]

/-- Witness for c1_amended_replace_all_occurrences: the agreement clause
applied at a concrete path free of both patterns. -/
theorem c1_witness :
    occursIn (".md".data) ("docs/faq".data) = false
      ∧ occursIn (".markdown".data) ("docs/faq".data) = false
      ∧ compute_url "docs/faq" = specComputeUrlTrailingExt "docs/faq" :=
  ⟨by decide, by decide,
    c1_amended_replace_all_occurrences.2.2 "docs/faq" (by decide) (by decide)⟩

/-- C2 (counterexample): the source rewrites every occurrence of the two
prefixes, not only a leading one; on a/content/en/docs/b the source
yields the base URL plus /a/docs/b while the claimed leading-only rules
leave the path unchanged. -/
theorem c2_counterexample :
    compute_url "a/content/en/docs/b" ≠ specComputeUrlLeadingRules "a/content/en/docs/b"
      ∧ compute_url "a/content/en/docs/b" = "https://karpenter.sh/a/docs/b"
      ∧ specComputeUrlLeadingRules "a/content/en/docs/b"
          = "https://karpenter.sh/a/content/en/docs/b" :=
  ⟨by decide, by decide, by decide⟩

/-- C2 (amended): the two rewrites replace every occurrence of
content/en/docs/ by docs/ and then every occurrence of content/en/ by the
empty string, anywhere in the extension-stripped, index-dropped path,
applied unconditionally in that order (so the second rule tests the
output of the first).  An occurrence that is not leading is rewritten as
well.  On paths whose intermediate form does not contain content/en/ at
all, the source agrees with the leading-only reading. -/
theorem c2_amended_rewrites_everywhere :
    compute_url "content/en/docs/a.md" = "https://karpenter.sh/docs/a"
      ∧ compute_url "content/en/a.md" = "https://karpenter.sh/a"
      ∧ compute_url "x/content/en/docs/y.md" = "https://karpenter.sh/x/docs/y"
      ∧ compute_url "content/en/content/en/docs/x.md" = "https://karpenter.sh/docs/x"
      ∧ (∀ p : String, occursIn ("content/en/".data) (urlPreRules p) = false →
          compute_url p = specComputeUrlLeadingRules p) := by
  refine ⟨by decide, by decide, by decide, by decide, ?_⟩
  intro p h
  have hlong : occursIn ("content/en/docs/".data) (urlPreRules p) = false := by
    cases ho : occursIn ("content/en/docs/".data) (urlPreRules p) with
    | false => rfl
    | true =>
      have : occursIn ("content/en/".data) (urlPreRules p) = true := by
        have hsplit : ("content/en/".data ++ "docs/".data) = "content/en/docs/".data := by
          decide
        exact occursIn_of_occursIn_longer (by rw [hsplit]; exact ho)
      exact absurd this (by simp [h])
  have hd1 : dropMatch ("content/en/docs/".data) (urlPreRules p) = none := by
    cases hd : dropMatch ("content/en/docs/".data) (urlPreRules p) with
    | none => rfl
    | some r => exact absurd (dropMatch_some_occursIn hd) (by simp [hlong])
  have hd2 : dropMatch ("content/en/".data) (urlPreRules p) = none := by
    cases hd : dropMatch ("content/en/".data) (urlPreRules p) with
    | none => rfl
    | some r => exact absurd (dropMatch_some_occursIn hd) (by simp [h])
  have hr1 : replaceAll ("content/en/docs/".data) ("docs/".data) (urlPreRules p)
      = urlPreRules p := replaceAll_of_not_occurs _ _ hlong
  have hr2 : replaceAll ("content/en/".data) [] (urlPreRules p)
      = urlPreRules p := replaceAll_of_not_occurs _ _ h
  have hspec : specLeadingRules (urlPreRules p) = urlPreRules p := by
    unfold specLeadingRules
    rw [hd1]
    show (match dropMatch ("content/en/".data) (urlPreRules p) with
      | some r => r
      | none => urlPreRules p) = urlPreRules p
    rw [hd2]
  have hcode : urlTail (stripMdExtensions p.data)
      = replaceAll ("content/en/".data) []
          (replaceAll ("content/en/docs/".data) ("docs/".data) (urlPreRules p)) := rfl
  unfold compute_url specComputeUrlLeadingRules
  rw [hcode, hr1, hr2]
  show (⟨KARPENTER_DOCS_BASE_URL.data ++ '/' :: urlPreRules p⟩ : String)
    = ⟨KARPENTER_DOCS_BASE_URL.data ++ '/' :: specLeadingRules (urlPreRules p)⟩
  rw [hspec]

/-- Witness for c2_amended_rewrites_everywhere: the agreement clause
applied at a concrete path whose intermediate form is free of the
rewritten substring. -/
theorem c2_witness :
    occursIn ("content/en/".data) (urlPreRules "docs/a.md") = false
      ∧ compute_url "docs/a.md" = specComputeUrlLeadingRules "docs/a.md" :=
  ⟨by decide, c2_amended_rewrites_everywhere.2.2.2.2 "docs/a.md" (by decide)⟩

/-- C3 (counterexample): removing the HTML comments can juxtapose
preserved brace characters into a new generic shortcode, so the cleaned
output is not free of the removed constructs: cleaning the input
brace, comment, brace x brace, comment, brace yields double-brace x
double-brace, which matches the generic shortcode pattern. -/
theorem c3_counterexample :
    clean_content "\x7b<!--a-->\x7bx\x7d<!--b-->\x7d" = "\x7b\x7bx\x7d\x7d"
      ∧ containsBraceShortcode
          (clean_content "\x7b<!--a-->\x7bx\x7d<!--b-->\x7d") = true :=
  ⟨by decide, by decide⟩

/-- C3 (amended): whatever the input, the cleaned output contains no
substring matching the HTML tag pattern (a less-than sign, one or more
characters other than the greater-than sign, then a greater-than sign);
the analogous guarantee for the brace shortcode forms does not hold, as
the counterexample shows. -/
theorem c3_amended_no_tag_match (s : String) :
    containsTagMatch (clean_content s) = false := by
  show hasTagMatch (pyStrip (removeTag _)) = false
  exact hasTagMatch_pyStrip (hasTagMatch_removeTagGo _ _ le_rfl)

/-- C4 (counterexample): a frontmatter title that is present and a string
is taken verbatim even when it is the empty string, so a successfully
parsed document can carry an empty title. -/
theorem c4_counterexample :
    (parse_file (.ok ⟨[("title", FMVal.str "")], "body"⟩)
        (.ok ["doc"]) "doc").isSome = true
      ∧ (parse_file (.ok ⟨[("title", FMVal.str "")], "body"⟩)
          (.ok ["doc"]) "doc").map Document.title = some "" :=
  ⟨by decide, by decide⟩

theorem replaceAllGo_singleton_length (a b : Char) (fuel : Nat) :
    ∀ l : List Char, (replaceAllGo [a] [b] fuel l).length = l.length := by
  induction fuel with
  | zero => intro l; cases l <;> rfl
  | succ fuel ih =>
    intro l
    cases l with
    | nil => rfl
    | cons c cs =>
      by_cases hac : a = c
      · subst hac
        have hdm : dropMatch [a] (a :: cs) = some cs := by simp [dropMatch]
        simp [replaceAllGo, hdm, ih]
      · have hdm : dropMatch [a] (c :: cs) = none := by simp [dropMatch, hac]
        simp [replaceAllGo, hdm, ih]

theorem pyTitleGo_length (b : Bool) (l : List Char) :
    (pyTitleGo b l).length = l.length := by
  induction l generalizing b with
  | nil => rfl
  | cons c cs ih => simp [pyTitleGo, ih]

theorem titleFromStem_ne_empty {stem : String} (h : stem ≠ "") :
    titleFromStem stem ≠ "" := by
  intro he
  apply h
  have hlen : (titleFromStem stem).data.length = stem.data.length := by
    show (pyTitle (replaceAll ['_'] [' '] (replaceAll ['-'] [' '] stem.data))).length
      = stem.data.length
    unfold pyTitle replaceAll
    rw [pyTitleGo_length, replaceAllGo_singleton_length, replaceAllGo_singleton_length]
  have hzero : stem.data.length = 0 := by
    rw [← hlen, he]
    rfl
  have hnil : stem.data = [] := List.length_eq_zero.mp hzero
  exact String.ext (hnil.trans rfl)

/-- C4 (amended): the parsed title equals the metadata title whenever
that field is present as a string, including the empty string; otherwise
it equals the filename-derived fallback, and that fallback is non-empty
whenever the filename stem is non-empty. -/
theorem c4_amended_title_rule :
    (∀ (meta : List (String × FMVal)) (body : String) (rel : List String)
        (stem : String) (d : Document),
        parse_file (.ok ⟨meta, body⟩) (.ok rel) stem = some d →
        d.title = (match metaGet meta "title" with
          | some (.str s) => s
          | _ => titleFromStem stem))
      ∧ (∀ stem : String, stem ≠ "" → titleFromStem stem ≠ "") := by
  constructor
  · intro meta body rel stem d h
    simp only [parse_file, Option.some.injEq] at h
    rw [← h]
    rfl
  · intro stem h
    exact titleFromStem_ne_empty h

/-- Witness for c4_amended_title_rule: both clauses applied at concrete
inputs, the second with its hypothesis discharged at a concrete stem. -/
theorem c4_witness :
    parse_file (.ok ⟨[], "b"⟩) (.ok ["test-doc.md"]) "test-doc"
        = some
            { path := "test-doc.md"
              title := titleFromStem "test-doc"
              description := none
              sectionName := "root"
              content := "b"
              url := compute_url "test-doc.md" }
      ∧ ("test-doc" : String) ≠ ""
      ∧ titleFromStem "test-doc" ≠ "" :=
  ⟨by decide, by decide, c4_amended_title_rule.2 "test-doc" (by decide)⟩

/-- C6: the parse operation is a total function into an optional result:
when either fallible step fails the result is None rather than an
exception, and a file with no metadata block (an empty mapping and the
whole text as body) always parses successfully. -/
theorem c6_parse_never_raises :
    (∀ (load : Except Unit FMDoc) (rel : Except Unit (List String))
        (stem : String),
        load = .error () ∨ rel = .error () →
        parse_file load rel stem = none)
      ∧ (∀ (body : String) (rel : List String) (stem : String),
          (parse_file (.ok ⟨[], body⟩) (.ok rel) stem).isSome = true) := by
  constructor
  · intro load rel stem h
    rcases h with h | h
    · subst h
      cases rel <;> rfl
    · subst h
      cases load <;> rfl
  · intro body rel stem
    rfl

/-- Witness for c6_parse_never_raises: the failure clause applied at a
concrete failing load. -/
theorem c6_witness :
    ((Except.error () : Except Unit FMDoc) = .error ()
        ∨ (Except.ok ["a"] : Except Unit (List String)) = .error ())
      ∧ parse_file (.error ()) (.ok ["a"]) "a" = none :=
  ⟨Or.inl rfl, c6_parse_never_raises.1 (.error ()) (.ok ["a"]) "a" (Or.inl rfl)⟩

theorem index_fold (files : List (Option Document)) :
    ∀ (n : Nat) (db : List Document),
      files.foldl
          (fun acc f =>
            match f with
            | some d => (acc.1 + 1, upsert_document d acc.2)
            | none => acc)
          (n, db)
        = (n + (files.filterMap id).length,
            (files.filterMap id).foldl (fun acc d => upsert_document d acc) db) := by
  induction files with
  | nil => intro n db; simp
  | cons f rest ih =>
    intro n db
    cases f with
    | some d =>
      rw [List.foldl_cons]
      show rest.foldl _ (n + 1, upsert_document d db) = _
      rw [ih (n + 1) (upsert_document d db)]
      simp only [List.filterMap_cons, id_eq, List.length_cons, List.foldl_cons]
      rw [Prod.mk.injEq]
      exact ⟨by omega, rfl⟩
    | none =>
      rw [List.foldl_cons]
      show rest.foldl _ (n, db) = _
      rw [ih n db]
      simp only [List.filterMap_cons, id_eq]

/-- C5: on an existing root directory, indexing upserts exactly the
successfully parsed documents, in enumeration order, raises no error and
returns their number, regardless of how many files fail to parse; on a
nonexistent root it returns the missing-input error instead. -/
theorem c5_index_counts :
    (∀ (docsPath : String) (files : List (Option Document)) (db : List Document),
        0 < files.length →
        index_directory docsPath true true files db
          = Except.ok ((files.filterMap id).length,
              (files.filterMap id).foldl (fun acc d => upsert_document d acc) db))
      ∧ (∀ (docsPath : String) (isDir : Bool) (files : List (Option Document))
          (db : List Document),
          index_directory docsPath false isDir files db
            = Except.error ("Documentation path does not exist: " ++ docsPath)) := by
  constructor
  · intro docsPath files db hpos
    show Except.ok (files.foldl _ (0, db)) = _
    rw [index_fold files 0 db]
    simp
  · intro docsPath isDir files db
    rfl

/-- Witness for c5_index_counts: both clauses applied at a concrete
listing with one successful and one failed parse. -/
theorem c5_witness :
    0 < ([some sampleDoc, none] : List (Option Document)).length
      ∧ index_directory "website" true true [some sampleDoc, none] []
          = Except.ok ((([some sampleDoc, none] : List (Option Document)).filterMap id).length,
              (([some sampleDoc, none] : List (Option Document)).filterMap id).foldl
                (fun acc d => upsert_document d acc) [])
      ∧ index_directory "missing" false true [some sampleDoc, none] []
          = Except.error ("Documentation path does not exist: " ++ "missing") :=
  ⟨by decide,
    c5_index_counts.1 "website" [some sampleDoc, none] [] (by decide),
    c5_index_counts.2 "missing" true [some sampleDoc, none] []⟩

/-- C9: indexing an existing path that contributes no markdown files
returns zero and leaves the store unchanged; this covers both an
existing path that is not a directory (rglob then yields nothing) and an
existing directory with no markdown files. -/
theorem c9_no_files_no_change :
    (∀ (docsPath : String) (files : List (Option Document)) (db : List Document),
        index_directory docsPath true false files db = Except.ok (0, db))
      ∧ (∀ (docsPath : String) (db : List Document),
          index_directory docsPath true true [] db = Except.ok (0, db)) :=
  ⟨fun _ _ _ => rfl, fun _ _ => rfl⟩

theorem find_upsert_map (d : Document) (db : List Document) :
    (db.map (fun e => if e.path = d.path then d else e)).find?
        (fun e => decide (e.path = d.path))
      = if db.any (fun e => decide (e.path = d.path)) then some d else none := by
  induction db with
  | nil => rfl
  | cons e es ih =>
    by_cases he : e.path = d.path
    · simp only [List.map_cons, if_pos he, List.any_cons, he, decide_True,
        Bool.true_or, if_pos]
      exact List.find?_cons_of_pos _ (by simp)
    · simp only [List.map_cons, if_neg he, List.any_cons, decide_eq_true_eq]
      rw [List.find?_cons_of_neg _ (by simp [he]), ih]
      simp [he]

theorem get_upsert (d : Document) (db : List Document) :
    get_document d.path (upsert_document d db) = some d := by
  unfold get_document upsert_document
  by_cases hmem : db.any (fun e => decide (e.path = d.path)) = true
  · rw [if_pos hmem, find_upsert_map, if_pos hmem]
  · rw [if_neg hmem]
    have hnone : db.find? (fun e => decide (e.path = d.path)) = none :=
      List.find?_eq_none.mpr (fun x hx hpx =>
        hmem (List.any_eq_true.mpr ⟨x, hx, hpx⟩))
    rw [List.find?_append, hnone]
    simp

theorem upsert_mem (d : Document) (db : List Document) :
    (upsert_document d db).any (fun e => decide (e.path = d.path)) = true := by
  unfold upsert_document
  by_cases hmem : db.any (fun e => decide (e.path = d.path)) = true
  · rw [if_pos hmem]
    rcases List.any_eq_true.mp hmem with ⟨x, hx, hpx⟩
    refine List.any_eq_true.mpr ⟨d, ?_, by simp⟩
    refine List.mem_map.mpr ⟨x, hx, ?_⟩
    rw [if_pos (of_decide_eq_true hpx)]
  · rw [if_neg hmem]
    exact List.any_eq_true.mpr ⟨d, List.mem_append_right db (List.mem_singleton.mpr rfl), by simp⟩

theorem count_upsert_of_mem (d : Document) (db : List Document)
    (h : db.any (fun e => decide (e.path = d.path)) = true) :
    get_document_count (upsert_document d db) = get_document_count db := by
  unfold get_document_count upsert_document
  rw [if_pos h, List.length_map]

theorem filter_upsert_map (d : Document) (db : List Document)
    (h : (db.map Document.path).Nodup)
    (hmem : db.any (fun e => decide (e.path = d.path)) = true) :
    (db.map (fun e => if e.path = d.path then d else e)).filter
        (fun e => decide (e.path = d.path)) = [d] := by
  induction db with
  | nil => simp at hmem
  | cons e es ih =>
    rw [List.map_cons] at h ⊢
    by_cases he : e.path = d.path
    · rw [if_pos he]
      have hrest : ∀ x ∈ es, ¬(x.path = d.path) := by
        intro x hx hxp
        have hin : e.path ∈ es.map Document.path := by
          rw [he, ← hxp]
          exact List.mem_map_of_mem Document.path hx
        exact (List.nodup_cons.mp h).1 hin
      have hfilter : (es.map (fun x => if x.path = d.path then d else x)).filter
          (fun x => decide (x.path = d.path)) = [] := by
        refine List.filter_eq_nil_iff.mpr ?_
        intro x hx
        rcases List.mem_map.mp hx with ⟨y, hy, hxy⟩
        rw [← hxy, if_neg (hrest y hy)]
        simp [hrest y hy]
      rw [List.filter_cons_of_pos (by simp), hfilter]
    · rw [if_neg he]
      have h2 : (es.map Document.path).Nodup := (List.nodup_cons.mp h).2
      have hmem2 : es.any (fun x => decide (x.path = d.path)) = true := by
        rcases List.any_eq_true.mp hmem with ⟨x, hx, hpx⟩
        rcases List.mem_cons.mp hx with hx1 | hx2
        · exact absurd (of_decide_eq_true hpx) (hx1 ▸ he)
        · exact List.any_eq_true.mpr ⟨x, hx2, hpx⟩
      rw [List.filter_cons_of_neg (by simp [he])]
      exact ih h2 hmem2

theorem filter_upsert (d : Document) (db : List Document)
    (h : (db.map Document.path).Nodup) :
    (upsert_document d db).filter (fun e => decide (e.path = d.path)) = [d] := by
  unfold upsert_document
  by_cases hmem : db.any (fun e => decide (e.path = d.path)) = true
  · rw [if_pos hmem]
    exact filter_upsert_map d db h hmem
  · rw [if_neg hmem, List.filter_append]
    have h1 : db.filter (fun e => decide (e.path = d.path)) = [] :=
      List.filter_eq_nil_iff.mpr (fun x hx hpx =>
        hmem (List.any_eq_true.mpr ⟨x, hx, hpx⟩))
    rw [h1]
    simp

theorem upsert_nodup (d : Document) (db : List Document)
    (h : (db.map Document.path).Nodup) :
    ((upsert_document d db).map Document.path).Nodup := by
  unfold upsert_document
  by_cases hmem : db.any (fun e => decide (e.path = d.path)) = true
  · rw [if_pos hmem]
    have hsame : (db.map (fun e => if e.path = d.path then d else e)).map Document.path
        = db.map Document.path := by
      rw [List.map_map]
      refine List.map_congr_left ?_
      intro e _
      by_cases hp : e.path = d.path
      · simp [hp]
      · simp [hp]
    rw [hsame]
    exact h
  · rw [if_neg hmem, List.map_append]
    refine List.nodup_append.mpr ⟨h, by simp, ?_⟩
    intro a ha hb
    simp only [List.map_cons, List.map_nil, List.mem_singleton] at hb
    subst hb
    rcases List.mem_map.mp ha with ⟨x, hx, hxp⟩
    exact hmem (List.any_eq_true.mpr ⟨x, hx, by simp [hxp]⟩)

theorem filter_swap {α : Type} (p q : α → Bool) (l : List α) :
    (l.filter p).filter q = (l.filter q).filter p := by
  induction l with
  | nil => rfl
  | cons a l ih =>
    by_cases hp : p a = true <;> by_cases hq : q a = true <;>
      simp [List.filter_cons, hp, hq, ih]

/-- C8: upserting a document and reading its path back returns the
document equal in every field; upserting the same document twice leaves
the count at its value after one upsert; and a search whose query is
non-empty and matches the document returns exactly one hit for it, under
the store invariant that paths are unique. -/
theorem c8_upsert_get_count_search :
    ∀ (d : Document) (db : List Document) (q : String),
      (db.map Document.path).Nodup → q ≠ "" → docMatches q d = true →
      get_document d.path (upsert_document d db) = some d
        ∧ get_document_count (upsert_document d (upsert_document d db))
            = get_document_count (upsert_document d db)
        ∧ (search q (upsert_document d (upsert_document d db))).filter
            (fun e => decide (e.path = d.path)) = [d] := by
  intro d db q hnodup hq hmatch
  refine ⟨get_upsert d db, count_upsert_of_mem d _ (upsert_mem d db), ?_⟩
  have hS1 : ((upsert_document d db).map Document.path).Nodup :=
    upsert_nodup d db hnodup
  have hfilter : (upsert_document d (upsert_document d db)).filter
      (fun e => decide (e.path = d.path)) = [d] :=
    filter_upsert d (upsert_document d db) hS1
  rw [search, if_neg hq, filter_swap, hfilter]
  rw [List.filter_cons_of_pos hmatch]
  rfl

/-- Witness for c8_upsert_get_count_search: the theorem applied to the
sample document over the empty store with a matching query. -/
theorem c8_witness :
    (([] : List Document).map Document.path).Nodup
      ∧ ("Test" : String) ≠ ""
      ∧ docMatches "Test" sampleDoc = true
      ∧ (get_document sampleDoc.path (upsert_document sampleDoc []) = some sampleDoc
          ∧ get_document_count (upsert_document sampleDoc (upsert_document sampleDoc []))
              = get_document_count (upsert_document sampleDoc [])
          ∧ (search "Test" (upsert_document sampleDoc (upsert_document sampleDoc []))).filter
              (fun e => decide (e.path = sampleDoc.path)) = [sampleDoc]) :=
  ⟨by simp, by decide, by decide,
    c8_upsert_get_count_search sampleDoc [] "Test" (by simp) (by decide) (by decide)⟩
